import Mathlib

/-
Verification development for the Demand-MLops repository.

Shallow embedding of the two core components:
  * src/fetch_data/collect_pv.py   — window planner (split_by_month, _month_end)
                                     and the paced fetch loop (download_all_by_months)
  * src/prefect_flows/merge_to_all.py — merge engine (merge_to_all_csv)
  * src/prefect_flows/prefect_pipeline.py — normalize_date_format

Modelling decisions, spelled out next to each definition:
  * Python `datetime.date` values are modelled by `DateT` together with the
    validity predicate `DateT.Valid` (Python's constructor enforces validity;
    we do not bound the year above, Python bounds it at 9999).
    Python compares dates lexicographically on (year, month, day); the
    embedding keeps that order (`dateLt`, `dateLe`) and separately proves it
    agrees with the proleptic-Gregorian day number `rd`.
  * `timedelta(days=1)` addition/subtraction on valid dates is modelled by
    `succDate` / `predDate`.
  * pandas DataFrames are modelled by `DF` (a column-name list plus rows of
    cell values).  `pd.to_datetime` normalisation of the date column is
    modelled as the identity: cell values are taken to be already in a
    canonical comparable form (`Val.num` for timestamps).
  * File input/output is modelled by passing the new batch and the optional
    master table as values and returning the table that the code persists.
    A raised Python exception is modelled by `Except.error`.
  * Python strings are modelled as `List Char`; `bytes` as `List Nat`.
-/

set_option autoImplicit false

/-- Calendar date record; mirrors the (year, month, day) of `datetime.date`. -/
structure DateT where
  year : Nat
  month : Nat
  day : Nat
deriving DecidableEq, Repr

/-- Proleptic Gregorian leap-year rule, as used by `datetime.date`. -/
def isLeap (y : Nat) : Bool :=
  y % 4 == 0 && (y % 100 != 0 || y % 400 == 0)

/-- Number of days in month `m` of year `y` (0 for out-of-range months). -/
def daysInMonth (y m : Nat) : Nat :=
  match m with
  | 2 => if isLeap y then 29 else 28
  | 4 => 30
  | 6 => 30
  | 9 => 30
  | 11 => 30
  | 1 => 31
  | 3 => 31
  | 5 => 31
  | 7 => 31
  | 8 => 31
  | 10 => 31
  | 12 => 31
  | _ => 0

/-- Validity of a date, as enforced by the `datetime.date` constructor
(years are bounded above at 9999 in Python; the bound is irrelevant to the
claims and not modelled). -/
def DateT.Valid (d : DateT) : Prop :=
  1 ≤ d.year ∧ 1 ≤ d.month ∧ d.month ≤ 12 ∧ 1 ≤ d.day ∧ d.day ≤ daysInMonth d.year d.month

instance (d : DateT) : Decidable d.Valid :=
  inferInstanceAs (Decidable (1 ≤ d.year ∧ 1 ≤ d.month ∧ d.month ≤ 12 ∧
    1 ≤ d.day ∧ d.day ≤ daysInMonth d.year d.month))

/-- Python date comparison `a < b` (lexicographic on year, month, day). -/
def dateLt (a b : DateT) : Prop :=
  a.year < b.year ∨ (a.year = b.year ∧ (a.month < b.month ∨ (a.month = b.month ∧ a.day < b.day)))

instance (a b : DateT) : Decidable (dateLt a b) :=
  inferInstanceAs (Decidable (a.year < b.year ∨ (a.year = b.year ∧
    (a.month < b.month ∨ (a.month = b.month ∧ a.day < b.day)))))

/-- Python date comparison `a <= b`. -/
def dateLe (a b : DateT) : Prop :=
  dateLt a b ∨ a = b

instance (a b : DateT) : Decidable (dateLe a b) :=
  inferInstanceAs (Decidable (dateLt a b ∨ a = b))

/-- Number of days in year `y`. -/
def daysInYear (y : Nat) : Nat :=
  if isLeap y then 366 else 365

/-- Days in all years strictly before year `y` (counting from year 0;
the constant offset is irrelevant, only differences matter). -/
def daysBeforeYear : Nat → Nat
  | 0 => 0
  | y + 1 => daysBeforeYear y + daysInYear y

/-- Days in all months of year `y` strictly before month `m`
(cumulative month-length table of the Gregorian calendar). -/
def daysBeforeMonth (y m : Nat) : Nat :=
  match m with
  | 1 => 0
  | 2 => 31
  | 3 => if isLeap y then 60 else 59
  | 4 => if isLeap y then 91 else 90
  | 5 => if isLeap y then 121 else 120
  | 6 => if isLeap y then 152 else 151
  | 7 => if isLeap y then 182 else 181
  | 8 => if isLeap y then 213 else 212
  | 9 => if isLeap y then 244 else 243
  | 10 => if isLeap y then 274 else 273
  | 11 => if isLeap y then 305 else 304
  | 12 => if isLeap y then 335 else 334
  | _ => 0

/-- Absolute day number (rata die) of a date; used to state ordering and
contiguity of windows. -/
def rd (d : DateT) : Nat :=
  daysBeforeYear d.year + daysBeforeMonth d.year d.month + d.day

/-- The next calendar day; models `d + timedelta(days=1)` on valid dates. -/
def succDate (d : DateT) : DateT :=
  if d.day < daysInMonth d.year d.month then ⟨d.year, d.month, d.day + 1⟩
  else if d.month < 12 then ⟨d.year, d.month + 1, 1⟩
  else ⟨d.year + 1, 1, 1⟩

/-- The previous calendar day; models `d - timedelta(days=1)` on valid dates. -/
def predDate (d : DateT) : DateT :=
  if 1 < d.day then ⟨d.year, d.month, d.day - 1⟩
  else if 1 < d.month then ⟨d.year, d.month - 1, daysInMonth d.year (d.month - 1)⟩
  else ⟨d.year - 1, 12, 31⟩

/-- Model of `_month_end` (collect_pv.py lines 58-63): first day of the next
month, minus one day. -/
def month_end (d : DateT) : DateT :=
  if d.month = 12 then predDate ⟨d.year + 1, 1, 1⟩
  else predDate ⟨d.year, d.month + 1, 1⟩

/-- A valid calendar date: what a parsed `datetime.date` value is. -/
def VDate : Type := { d : DateT // d.Valid }

instance : DecidableEq VDate :=
  inferInstanceAs (DecidableEq { d : DateT // d.Valid })

/-- `succDate` on valid dates, with the validity proof carried along. -/
def vsucc (d : VDate) : VDate :=
  ⟨succDate d.val, by
    obtain ⟨hy, hm1, hm2, hd1, hd2⟩ := d.property
    have hdim : ∀ mm, 1 ≤ mm → mm ≤ 12 → 1 ≤ daysInMonth d.val.year mm := by
      intro mm h1 h2
      interval_cases mm <;> simp [daysInMonth] <;> (try split) <;> omega
    unfold succDate
    split
    · refine ⟨?_, ?_, ?_, ?_, ?_⟩ <;> dsimp only <;> omega
    · split
      · refine ⟨?_, ?_, ?_, ?_, ?_⟩ <;> dsimp only
        · omega
        · omega
        · omega
        · omega
        · exact hdim _ (by omega) (by omega)
      · refine ⟨?_, ?_, ?_, ?_, ?_⟩ <;> dsimp only
        · omega
        · omega
        · omega
        · omega
        · simp [daysInMonth]⟩

/-- `month_end` on valid dates, with the validity proof carried along. -/
def vMonthEnd (d : VDate) : VDate :=
  ⟨month_end d.val, by
    obtain ⟨hy, hm1, hm2, hd1, hd2⟩ := d.property
    have hdim : ∀ mm, 1 ≤ mm → mm ≤ 12 → 1 ≤ daysInMonth d.val.year mm := by
      intro mm h1 h2
      interval_cases mm <;> simp [daysInMonth] <;> (try split) <;> omega
    unfold month_end
    split
    · have hpred : predDate ⟨d.val.year + 1, 1, 1⟩ = ⟨d.val.year, 12, 31⟩ := by
        simp [predDate]
      rw [hpred]
      refine ⟨?_, ?_, ?_, ?_, ?_⟩ <;> dsimp only
      · omega
      · omega
      · omega
      · omega
      · simp [daysInMonth]
    · have hpred : predDate ⟨d.val.year, d.val.month + 1, 1⟩
          = ⟨d.val.year, d.val.month, daysInMonth d.val.year d.val.month⟩ := by
        simp [predDate, show 1 < d.val.month + 1 from by omega]
      rw [hpred]
      refine ⟨?_, ?_, ?_, ?_, ?_⟩ <;> dsimp only
      · omega
      · omega
      · omega
      · exact hdim _ (by omega) (by omega)
      · omega⟩

/-- Calendar month counter (months since year 0), the loop measure of
`split_by_month`: every iteration moves the cursor to the first day of the
next month or past the end date. -/
def monthIndex (d : DateT) : Nat :=
  12 * d.year + d.month

/-- Loop body of `split_by_month` (collect_pv.py lines 72-79).  The Python
while-loop is modelled with explicit fuel; `split_by_month` supplies
`12 * (end.year + 1 - start.year)` steps, which is enough because the loop
runs at most once per calendar month touched by the range
(`splitAux_covers` proves the loop's full specification with exactly this
fuel, so the fuel encoding is faithful to the unbounded while-loop). -/
def splitAux (endd : VDate) : Nat → VDate → List (VDate × VDate)
  | 0, _ => []
  | fuel + 1, cur =>
    if dateLe cur.val endd.val then
      let me := vMonthEnd cur
      let chunk_end := if dateLe me.val endd.val then me else endd
      (cur, chunk_end) :: splitAux endd fuel (vsucc chunk_end)
    else []

/-- Model of `split_by_month` (collect_pv.py lines 66-79).  The string
parsing `_to_date_yyyymmdd` (which validates the dates) is modelled by taking
already-parsed valid dates; the `ValueError` raised on an inverted range is
modelled by `Except.error`. -/
def split_by_month (date_s date_e : VDate) : Except String (List (VDate × VDate)) :=
  if dateLt date_e.val date_s.val then .error ("종료일이 시작일보다 빠릅니다.")
  else .ok (splitAux date_e (12 * (date_e.val.year + 1 - date_s.val.year)) date_s)

/-- Exact-cover predicate for a window list over the day-number interval
[lo, hi]: the windows are ordered, contiguous (each window starts one day
after the previous window ends) and jointly cover the interval exactly. -/
def covers (lo : Nat) : List (VDate × VDate) → Nat → Prop
  | [], hi => lo = hi + 1
  | w :: ws, hi => rd w.1.val = lo ∧ lo ≤ rd w.2.val ∧ covers (rd w.2.val + 1) ws hi

/-- One window of the fetch loop: the `(ds, de)` bound strings taken from
`month_ranges`. -/
structure Window where
  ds : List Char
  de : List Char
deriving DecidableEq, Repr

/-- The observable part of one window's network exchange: the transport
status of the priming GET (`r1`) and of the data POST (`r2`), the declared
Content-Type header of the data response, and its body bytes. -/
structure FetchResponse where
  primeStatus : Nat
  status : Nat
  contentType : List Char
  body : List Nat
deriving DecidableEq, Repr

/-- The diagnostic printed on a rejected window (collect_pv.py lines
177-178): the window bounds, the (lower-cased) declared content type, and
the first 300 bytes of the body. -/
structure RejectDiag where
  ds : List Char
  de : List Char
  contentType : List Char
  preview : List Nat
deriving DecidableEq, Repr

/-- Outcome of processing one window: either a rejection diagnostic is
printed and no file is written, or the body is written to a file for that
window (filename construction via `_sanitize_filename` is not modelled; the
saved outcome is identified by its window bounds). -/
inductive WindowOutcome where
  | rejected : RejectDiag → WindowOutcome
  | saved : (ds : List Char) → (de : List Char) → (body : List Nat) → WindowOutcome
deriving DecidableEq, Repr

/-- Python substring membership `needle in hay`. -/
def containsSub (needle hay : List Char) : Bool :=
  hay.tails.any (fun t => needle.isPrefixOf t)

/-- The characters of the literal "csv" tested against the content type. -/
def csvChars : List Char := [ 'c', 's', 'v' ]

/-- Python `str.lower`. -/
def lowerStr (s : List Char) : List Char :=
  s.map Char.toLower

/-- Model of the response-classification step of `download_all_by_months`
(collect_pv.py lines 173-183): lower-case the declared content type; if
"csv" does not occur in it, print a rejection diagnostic and write nothing;
otherwise write the body to the window's file. -/
def processResponse (w : Window) (r : FetchResponse) : WindowOutcome :=
  let content_type := lowerStr r.contentType
  if containsSub csvChars content_type then .saved w.ds w.de r.body
  else .rejected { ds := w.ds, de := w.de, contentType := content_type,
                   preview := r.body.take 300 }

/-- One observable event of a fetch run: a processed window, or a
suspension of the given number of seconds (`asyncio.sleep`). -/
inductive RunEvent where
  | window : WindowOutcome → RunEvent
  | sleep : Nat → RunEvent
deriving DecidableEq, Repr

/-- Model of the per-window loop of `download_all_by_months`
(collect_pv.py lines 149-187).  `idx` enumerates windows from 1; `total` is
the number of windows.  `raise_for_status()` on either request (models
aiohttp: raises for status >= 400) aborts the whole run (`Except.error`);
otherwise the window is processed and, if it is not the last window
(`idx < total`), the loop sleeps 5 seconds before the next window. -/
def runLoop (total : Nat) : Nat → List (Window × FetchResponse) → Except String (List RunEvent)
  | _, [] => .ok []
  | idx, (w, r) :: rest =>
    if 400 ≤ r.primeStatus then .error ("TransportError")
    else if 400 ≤ r.status then .error ("TransportError")
    else
      match runLoop total (idx + 1) rest with
      | .error e => .error e
      | .ok tail =>
        .ok (RunEvent.window (processResponse w r) ::
             (if idx < total then RunEvent.sleep 5 :: tail else tail))

/-- Model of `download_all_by_months` restricted to its per-window loop:
the interactive prompting, URL building and session setup are out of scope;
the network is abstracted as the list of responses, one per planned
window. -/
def download_all_by_months (runs : List (Window × FetchResponse)) : Except String (List RunEvent) :=
  runLoop runs.length 1 runs

/-- A cell value of a tabular file: a string, a comparable timestamp or
number (`pd.to_datetime` results are modelled as already-numeric `num`
values), or the missing-value marker NaN (pandas `merge` matches NaN keys
to each other, so decidable equality on `nan` is faithful for the dedup
path). -/
inductive Val where
  | str : String → Val
  | num : Int → Val
  | nan : Val
deriving DecidableEq, Repr

/-- A pandas DataFrame: an ordered list of column names and the rows of
cell values (each row lists its cells in column order). -/
structure DF where
  cols : List String
  rows : List (List Val)
deriving DecidableEq, Repr

/-- Well-formedness of a DataFrame: every row has one cell per column.
Frames read from CSV always satisfy this. -/
def DF.WF (df : DF) : Prop :=
  ∀ r ∈ df.rows, r.length = df.cols.length

/-- Value of column `t` in a row laid out according to `cols`
(first matching column, `none` if the column is absent). -/
def getVal : List String → List Val → String → Option Val
  | [], _, _ => none
  | _ :: _, [], _ => none
  | c :: cs, v :: vs, t => if c = t then some v else getVal cs vs t

/-- The identity key of a row: its values at the `subset` columns.
Models the `on=subset_cols` comparison of `DataFrame.merge`. -/
def rowKey (cols subset : List String) (row : List Val) : List (Option Val) :=
  subset.map (fun c => getVal cols row c)

/-- Re-layout a row from `oldCols` to `newCols`, filling NaN for columns it
does not have; models the column alignment `pd.concat` performs. -/
def reindex (oldCols : List String) (row : List Val) (newCols : List String) : List Val :=
  newCols.map (fun c => (getVal oldCols row c).getD Val.nan)

/-- Model of `pd.concat([a, b], ignore_index=True)`: the result's columns
are `a`'s followed by `b`'s new ones; rows of both frames are aligned to
that layout with NaN fill. -/
def DF.concat (a b : DF) : DF :=
  let cols := a.cols ++ b.cols.filter (fun c => decide (c ∉ a.cols))
  { cols := cols
    rows := a.rows.map (fun r => reindex a.cols r cols) ++
            b.rows.map (fun r => reindex b.cols r cols) }

/-- Observable outcome of one merge call: the persisted master table, the
added/skipped counts printed by the script, the identity-key columns it
settled on (`none` when dedup was bypassed) and whether the bypass warning
was printed. -/
structure MergeResult where
  table : DF
  added : Nat
  skipped : Nat
  usedKey : Option (List String)
  warned : Bool
deriving DecidableEq, Repr

/-- The master table's existing key combinations: models
`df_merged_keys = df_merged[subset_cols].drop_duplicates()` (merge_to_all.py
lines 68 and 85); only membership in it is ever used. -/
def masterKeys (subset : List String) (df : DF) : List (List (Option Val)) :=
  (df.rows.map (fun r => rowKey df.cols subset r)).dedup

/-- The incoming rows not already present: models `df_new_unique`, the rows
of the left merge with indicator kept at `_merge == "left_only"`
(merge_to_all.py lines 71-77 and 88-94). -/
def newUnique (subset : List String) (df_new df_merged : DF) : List (List Val) :=
  df_new.rows.filter (fun r => decide (rowKey df_new.cols subset r ∉ masterKeys subset df_merged))

/-- The dedup-and-append path of `merge_to_all_csv` (merge_to_all.py lines
62-108) for a resolved key-column list `subset`:
`df_merged[subset_cols]` raises KeyError when the master lacks one of the
columns (modelled by `Except.error`); otherwise the master's key
combinations are collected (`masterKeys`), the new rows whose key already
occurs are dropped (`newUnique`), and the remaining rows are appended
(`pd.concat`) when there are any. -/
def dedupBy (subset : List String) (df_new df_merged : DF) : Except String MergeResult :=
  if subset.all (fun c => decide (c ∈ df_merged.cols)) then
    .ok { table :=
            if 0 < (newUnique subset df_new df_merged).length
            then DF.concat df_merged { cols := df_new.cols,
                                       rows := newUnique subset df_new df_merged }
            else df_merged,
          added := (newUnique subset df_new df_merged).length,
          skipped := df_new.rows.length - (newUnique subset df_new df_merged).length,
          usedKey := some subset, warned := false }
  else .error ("KeyError")

/-- Model of `merge_to_all_csv` (merge_to_all.py lines 16-128).  File I/O is
abstracted: the new batch and the optional existing master table are passed
as values and the persisted table is returned.  The `pd.to_datetime`
normalisation of the `date` column (lines 53-58 and 114-115) is modelled as
the identity (cell values are taken as already normalised); note that the
code converts the date column before saving but performs no sort.  The
key-column fallback chain tests membership in `df_new.columns` only (lines
62 and 79); when neither branch applies, dedup is bypassed with a warning
and every incoming row is kept (lines 95-97). -/
def merge_to_all_csv (df_new : DF) (master : Option DF) : Except String MergeResult :=
  match master with
  | some df_merged =>
    if ("hour") ∈ df_new.cols ∧ ("date") ∈ df_new.cols ∧ ("station_name") ∈ df_new.cols then
      dedupBy [("date"), ("station_name"), ("hour")] df_new df_merged
    else if ("date") ∈ df_new.cols ∧ ("station_name") ∈ df_new.cols then
      dedupBy [("date"), ("station_name")] df_new df_merged
    else
      .ok { table := if 0 < df_new.rows.length then DF.concat df_merged df_new else df_merged,
            added := df_new.rows.length, skipped := 0,
            usedKey := none, warned := true }
  | none =>
    .ok { table := df_new, added := df_new.rows.length, skipped := 0,
          usedKey := none, warned := false }

/-- The `date` column of a table, row by row. -/
def dateColumn (df : DF) : List (Option Val) :=
  df.rows.map (fun r => getVal df.cols r ("date"))

/-- The numeric timestamps among a list of cells. -/
def numsOf (l : List (Option Val)) : List Int :=
  l.filterMap (fun v => match v with
    | some (Val.num n) => some n
    | _ => none)

/-- The ordering invariant claimed of the master table: its date column is
non-decreasing. -/
def dateSortedAsc (df : DF) : Prop :=
  List.Chain' (fun a b => a ≤ b) (numsOf (dateColumn df))

instance (df : DF) : Decidable (dateSortedAsc df) :=
  inferInstanceAs (Decidable (List.Chain' (fun a b => a ≤ b) (numsOf (dateColumn df))))

instance (df : DF) : Decidable df.WF :=
  inferInstanceAs (Decidable (∀ r ∈ df.rows, r.length = df.cols.length))

/-- Model of `normalize_date_format` (prefect_pipeline.py lines 194-210).
Python strings are modelled as `List Char`; `str.replace("-", "")` deletes
every occurrence of the character, hence `filter`; `str.isdigit` is
modelled as the decimal-digit test (the claims do not involve non-ASCII
digit characters); the `ValueError` is modelled as `Except.error`. -/
def normalize_date_format (date_str : List Char) : Except String (List Char) :=
  let normalized := (date_str.filter (fun c => c != '-')).filter (fun c => c != '/')
  if normalized.length = 8 ∧ normalized.all Char.isDigit then .ok normalized
  else .error ("날짜 형식이 올바르지 않습니다")

/-- The separator-stripping step of `normalize_date_format` on its own, for
stating which inputs are accepted. -/
def stripSeps (date_str : List Char) : List Char :=
  (date_str.filter (fun c => c != '-')).filter (fun c => c != '/')

/-- A master table with one row dated 5 at station A (no hour column). -/
def dfMasterLate : DF :=
  { cols := [("date"), ("station_name")],
    rows := [[Val.num 5, Val.str ("A")]] }

/-- A new batch with one earlier row dated 3 at station B. -/
def dfBatchEarly : DF :=
  { cols := [("date"), ("station_name")],
    rows := [[Val.num 3, Val.str ("B")]] }

/-- A new batch carrying all three identity columns. -/
def dfBatchHour : DF :=
  { cols := [("date"), ("station_name"), ("hour")],
    rows := [[Val.num 1, Val.str ("A"), Val.num 0]] }

/-- A new batch without any identity column. -/
def dfNoKey : DF :=
  { cols := [("x")], rows := [[Val.num 1]] }

/-- A new batch with identity columns, for the idempotence witness. -/
def dfKeyed : DF :=
  { cols := [("date"), ("station_name")],
    rows := [[Val.num 1, Val.str ("A")]] }

/-- A first sample window used to instantiate the fetch-loop theorems. -/
def sampleWindow1 : Window :=
  { ds := [ '2', '0', '2', '5', '1', '1', '0', '1' ],
    de := [ '2', '0', '2', '5', '1', '1', '3', '0' ] }

/-- A second sample window used to instantiate the fetch-loop theorems. -/
def sampleWindow2 : Window :=
  { ds := [ '2', '0', '2', '5', '1', '2', '0', '1' ],
    de := [ '2', '0', '2', '5', '1', '2', '0', '1' ] }

/-- A successful response declaring an HTML content type (not CSV). -/
def htmlResponse : FetchResponse :=
  { primeStatus := 200, status := 200,
    contentType := [ 'T', 'E', 'X', 'T', '/', 'H', 'T', 'M', 'L' ],
    body := [ 60, 104, 116, 109, 108, 62 ] }

/-- A successful response declaring a CSV content type. -/
def csvResponse : FetchResponse :=
  { primeStatus := 200, status := 200,
    contentType := [ 't', 'e', 'x', 't', '/', 'c', 's', 'v' ],
    body := [ 97, 44, 98 ] }

/-- 2025-11-01, the example start date of the spec. -/
def d20251101 : VDate := ⟨⟨2025, 11, 1⟩, by decide⟩

/-- 2025-11-30, end of the example's first window. -/
def d20251130 : VDate := ⟨⟨2025, 11, 30⟩, by decide⟩

/-- 2025-12-01, the example end date of the spec. -/
def d20251201 : VDate := ⟨⟨2025, 12, 1⟩, by decide⟩

/-- Every real month has at least one day. -/
theorem one_le_daysInMonth (y m : Nat) (h1 : 1 ≤ m) (h2 : m ≤ 12) : 1 ≤ daysInMonth y m := by
  interval_cases m <;> simp [daysInMonth] <;> (try split) <;> omega

/-- The cumulative month table advances by the month length. -/
theorem daysBeforeMonth_succ (y m : Nat) (h1 : 1 ≤ m) (h2 : m ≤ 11) :
    daysBeforeMonth y (m + 1) = daysBeforeMonth y m + daysInMonth y m := by
  interval_cases m <;> cases hl : isLeap y <;>
    simp [daysBeforeMonth, daysInMonth, hl]

/-- The cumulative month table ends at the year length. -/
theorem daysBeforeMonth_year (y : Nat) :
    daysBeforeMonth y 12 + daysInMonth y 12 = daysInYear y := by
  cases hl : isLeap y <;> simp [daysBeforeMonth, daysInMonth, daysInYear, hl]

/-- Monotone staircase of the cumulative month table. -/
theorem daysBeforeMonth_staircase (y : Nat) :
    ∀ m', m' ≤ 12 → ∀ m, 1 ≤ m → m < m' →
      daysBeforeMonth y m + daysInMonth y m ≤ daysBeforeMonth y m' := by
  intro m'
  induction m' with
  | zero => omega
  | succ k ih =>
    intro hk m h1 hlt
    rcases Nat.lt_or_ge m k with hmk | hmk
    · have h' := ih (by omega) m h1 hmk
      have h'' := daysBeforeMonth_succ y k (by omega) (by omega)
      omega
    · have hmeq : m = k := by omega
      subst hmeq
      have h'' := daysBeforeMonth_succ y m h1 (by omega)
      omega

/-- A date's offset within its year is below the year length. -/
theorem dbm_day_le_year (y m d : Nat) (h1 : 1 ≤ m) (h2 : m ≤ 12) (h3 : d ≤ daysInMonth y m) :
    daysBeforeMonth y m + d ≤ daysInYear y := by
  rcases Nat.lt_or_ge m 12 with hm | hm
  · have hs := daysBeforeMonth_staircase y 12 (by omega) m h1 hm
    have hy := daysBeforeMonth_year y
    have := one_le_daysInMonth y 12 (by omega) (by omega)
    omega
  · have hmeq : m = 12 := by omega
    subst hmeq
    have hy := daysBeforeMonth_year y
    omega

/-- The year prefix sums are monotone. -/
theorem daysBeforeYear_mono (y y' : Nat) (h : y ≤ y') :
    daysBeforeYear y ≤ daysBeforeYear y' := by
  induction y' with
  | zero =>
    have hy0 : y = 0 := by omega
    subst hy0
    exact Nat.le_refl _
  | succ k ih =>
    rcases Nat.lt_or_ge y (k + 1) with hk | hk
    · have := ih (by omega)
      have : daysBeforeYear (k + 1) = daysBeforeYear k + daysInYear k := rfl
      omega
    · have hyeq : y = k + 1 := by omega
      subst hyeq
      omega

/-- Python's lexicographic date order implies strict day-number order on
valid dates. -/
theorem rd_lt_of_dateLt (a b : DateT) (ha : a.Valid) (hb : b.Valid) (h : dateLt a b) :
    rd a < rd b := by
  obtain ⟨ya, ma, da⟩ := a
  obtain ⟨yb, mb, db'⟩ := b
  obtain ⟨ha1, ha2, ha3, ha4, ha5⟩ := ha
  obtain ⟨hb1, hb2, hb3, hb4, hb5⟩ := hb
  simp only [dateLt] at h
  try dsimp only at *
  rcases h with hy | ⟨hy, hm | ⟨hm, hd⟩⟩
  · have e1 : daysBeforeMonth ya ma + da ≤ daysInYear ya := dbm_day_le_year ya ma da ha2 ha3 ha5
    have e2 : daysBeforeYear (ya + 1) = daysBeforeYear ya + daysInYear ya := rfl
    have e3 : daysBeforeYear (ya + 1) ≤ daysBeforeYear yb := daysBeforeYear_mono _ _ (by omega)
    simp only [rd]
    try dsimp only
    omega
  · subst hy
    have e1 := daysBeforeMonth_staircase ya mb hb3 ma ha2 hm
    simp only [rd]
    try dsimp only
    omega
  · subst hy; subst hm
    simp only [rd]
    try dsimp only
    omega

/-- Lexicographic date order is trichotomous. -/
theorem dateLt_trichotomy (a b : DateT) : dateLt a b ∨ a = b ∨ dateLt b a := by
  obtain ⟨ya, ma, da⟩ := a
  obtain ⟨yb, mb, db'⟩ := b
  simp only [dateLt, DateT.mk.injEq]
  try dsimp only
  omega

/-- On valid dates, Python's `<=` on dates agrees with day-number order. -/
theorem dateLe_iff (a b : DateT) (ha : a.Valid) (hb : b.Valid) :
    dateLe a b ↔ rd a ≤ rd b := by
  constructor
  · rintro (h | rfl)
    · exact Nat.le_of_lt (rd_lt_of_dateLt a b ha hb h)
    · exact Nat.le_refl _
  · intro h
    rcases dateLt_trichotomy a b with h' | h' | h'
    · exact Or.inl h'
    · exact Or.inr h'
    · have := rd_lt_of_dateLt b a hb ha h'
      omega

/-- Adding one day advances the day number by exactly one. -/
theorem rd_succDate (d : DateT) (h : d.Valid) : rd (succDate d) = rd d + 1 := by
  obtain ⟨yd, md, dd⟩ := d
  obtain ⟨h1, h2, h3, h4, h5⟩ := h
  try dsimp only at *
  unfold succDate
  try dsimp only
  split
  · simp only [rd]
    try dsimp only
    omega
  · split
    · have e1 := daysBeforeMonth_succ yd md h2 (by omega)
      simp only [rd]
      try dsimp only
      omega
    · have hm12 : md = 12 := by omega
      subst hm12
      have e1 := daysBeforeMonth_year yd
      have e2 : daysBeforeYear (yd + 1) = daysBeforeYear yd + daysInYear yd := rfl
      have e3 : daysBeforeMonth (yd + 1) 1 = 0 := rfl
      have e4 : daysInMonth yd 12 = 31 := rfl
      simp only [rd]
      try dsimp only
      omega

/-- `_month_end` computes the last day of the cursor's month. -/
theorem month_end_eq (d : DateT) (h : d.Valid) :
    month_end d = ⟨d.year, d.month, daysInMonth d.year d.month⟩ := by
  obtain ⟨yd, md, dd⟩ := d
  obtain ⟨h1, h2, h3, h4, h5⟩ := h
  try dsimp only at *
  unfold month_end
  try dsimp only
  split
  · rename_i hm
    subst hm
    simp [predDate, daysInMonth]
  · simp [predDate, show 1 < md + 1 from by omega]

/-- The month end is not before the cursor. -/
theorem rd_le_rd_month_end (d : DateT) (h : d.Valid) : rd d ≤ rd (month_end d) := by
  rw [month_end_eq d h]
  obtain ⟨yd, md, dd⟩ := d
  obtain ⟨h1, h2, h3, h4, h5⟩ := h
  simp only [rd]
  try dsimp only at *
  omega

/-- Once the cursor passes the end date the loop produces nothing. -/
theorem splitAux_nil (endd : VDate) (fuel : Nat) (cur : VDate)
    (h : ¬ dateLe cur.val endd.val) : splitAux endd fuel cur = [] := by
  cases fuel with
  | zero => rfl
  | succ f => simp [splitAux, h]

/-- On valid dates, date order implies month-counter order. -/
theorem monthIndex_le_of_dateLe (a b : DateT) (ha : a.Valid) (hb : b.Valid)
    (h : dateLe a b) : monthIndex a ≤ monthIndex b := by
  obtain ⟨ha1, ha2, ha3, ha4, ha5⟩ := ha
  obtain ⟨hb1, hb2, hb3, hb4, hb5⟩ := hb
  rcases h with hlt | heq
  · rcases hlt with hy | ⟨hy, hm | ⟨hm, _⟩⟩ <;> simp only [monthIndex] <;> omega
  · rw [heq]

/-- The day after the month end is the first day of the next month: the
loop cursor advances by exactly one calendar month. -/
theorem monthIndex_succ_month_end (d : DateT) (h : d.Valid) :
    monthIndex (succDate (month_end d)) = monthIndex d + 1 := by
  rw [month_end_eq d h]
  obtain ⟨yd, md, dd⟩ := d
  obtain ⟨h1, h2, h3, h4, h5⟩ := h
  try dsimp only at *
  unfold succDate
  try dsimp only
  split
  · omega
  · split <;> simp only [monthIndex] <;> try dsimp only
    · omega
    · rename_i hmlt
      try dsimp only at hmlt
      omega

/-- Full specification of the `split_by_month` loop: with the fuel supplied
by `split_by_month` (at least one step per calendar month left), the
produced windows exactly cover the requested day-number interval. -/
theorem splitAux_covers (endd : VDate) :
    ∀ (fuel : Nat) (cur : VDate), rd cur.val ≤ rd endd.val →
      monthIndex endd.val + 1 ≤ monthIndex cur.val + fuel →
      covers (rd cur.val) (splitAux endd fuel cur) (rd endd.val) := by
  intro fuel
  induction fuel with
  | zero =>
    intro cur h1 h2
    have hle : dateLe cur.val endd.val :=
      (dateLe_iff _ _ cur.property endd.property).mpr h1
    have := monthIndex_le_of_dateLe _ _ cur.property endd.property hle
    omega
  | succ f ih =>
    intro cur h1 h2
    have hle : dateLe cur.val endd.val :=
      (dateLe_iff _ _ cur.property endd.property).mpr h1
    simp only [splitAux, hle, if_true]
    by_cases hc : dateLe (vMonthEnd cur).val endd.val
    · rw [if_pos hc]
      have hcurme : rd cur.val ≤ rd (vMonthEnd cur).val :=
        rd_le_rd_month_end cur.val cur.property
      have hmee : rd (vMonthEnd cur).val ≤ rd endd.val :=
        (dateLe_iff _ _ (vMonthEnd cur).property endd.property).mp hc
      refine ⟨rfl, hcurme, ?_⟩
      have hrd : rd (vsucc (vMonthEnd cur)).val = rd (vMonthEnd cur).val + 1 :=
        rd_succDate (vMonthEnd cur).val (vMonthEnd cur).property
      have hmi : monthIndex (vsucc (vMonthEnd cur)).val = monthIndex cur.val + 1 :=
        monthIndex_succ_month_end cur.val cur.property
      rcases Nat.lt_or_ge (rd (vMonthEnd cur).val) (rd endd.val) with hstop | hstop
      · have := ih (vsucc (vMonthEnd cur)) (by omega) (by omega)
        rw [hrd] at this
        exact this
      · have heq : rd (vMonthEnd cur).val = rd endd.val := by omega
        have hnil : splitAux endd f (vsucc (vMonthEnd cur)) = [] := by
          apply splitAux_nil
          intro hle'
          have := (dateLe_iff _ _ (vsucc (vMonthEnd cur)).property endd.property).mp hle'
          omega
        rw [hnil]
        simp only [covers]
        omega
    · rw [if_neg hc]
      refine ⟨rfl, h1, ?_⟩
      have hrd : rd (vsucc endd).val = rd endd.val + 1 :=
        rd_succDate endd.val endd.property
      have hnil : splitAux endd f (vsucc endd) = [] := by
        apply splitAux_nil
        intro hle'
        have := (dateLe_iff _ _ (vsucc endd).property endd.property).mp hle'
        omega
      rw [hnil]
      simp only [covers]

/-- A cover's lower bound does not exceed the upper bound by more than one. -/
theorem covers_le (ws : List (VDate × VDate)) :
    ∀ lo hi, covers lo ws hi → lo ≤ hi + 1 := by
  induction ws with
  | nil => intro lo hi h; simpa [covers] using Nat.le_of_eq h
  | cons w ws ih =>
    intro lo hi h
    obtain ⟨h1, h2, h3⟩ := h
    have := ih _ _ h3
    omega

/-- A day number lies in [lo, hi] exactly when some window of a cover of
[lo, hi] contains it: the windows' union is exactly the interval. -/
theorem covers_mem_iff (ws : List (VDate × VDate)) :
    ∀ lo hi, covers lo ws hi → ∀ n,
      (lo ≤ n ∧ n ≤ hi) ↔ ∃ w ∈ ws, rd w.1.val ≤ n ∧ n ≤ rd w.2.val := by
  induction ws with
  | nil =>
    intro lo hi h n
    simp only [covers] at h
    simp only [List.not_mem_nil, false_and, exists_false, iff_false]
    omega
  | cons w ws ih =>
    intro lo hi h n
    obtain ⟨h1, h2, h3⟩ := h
    have hrest := ih _ _ h3 n
    have hle := covers_le ws _ _ h3
    constructor
    · rintro ⟨hn1, hn2⟩
      rcases le_or_lt n (rd w.2.val) with hsplit | hsplit
      · exact ⟨w, List.mem_cons_self _ _, by omega, hsplit⟩
      · obtain ⟨w', hw', hw1, hw2⟩ := hrest.mp ⟨by omega, hn2⟩
        exact ⟨w', List.mem_cons_of_mem _ hw', hw1, hw2⟩
    · rintro ⟨w', hw', hw1, hw2⟩
      rcases List.mem_cons.mp hw' with heq | hmem
      · subst heq
        omega
      · have := hrest.mpr ⟨w', hmem, hw1, hw2⟩
        omega

set_option maxRecDepth 4000 in
/-- C2: for every pair of valid calendar dates start <= end, the window
planner `split_by_month` succeeds and returns an ordered sequence of
windows that is contiguous and non-overlapping and whose union is exactly
[start, end] (stated by the exact-cover predicate together with the
day-number membership equivalence); in particular on 2025-11-01 ..
2025-12-01 it returns exactly [(20251101, 20251130), (20251201, 20251201)]. -/
theorem split_by_month_covers_range :
    (∀ s e : VDate, dateLe s.val e.val →
      ∃ ws, split_by_month s e = .ok ws ∧ covers (rd s.val) ws (rd e.val) ∧
        ∀ n, (rd s.val ≤ n ∧ n ≤ rd e.val) ↔
          ∃ w ∈ ws, rd w.1.val ≤ n ∧ n ≤ rd w.2.val) ∧
    split_by_month d20251101 d20251201 =
      .ok [(d20251101, d20251130), (d20251201, d20251201)] := by
  constructor
  · intro s e hse
    have hrd : rd s.val ≤ rd e.val := (dateLe_iff _ _ s.property e.property).mp hse
    have hnlt : ¬ dateLt e.val s.val := by
      intro h
      have := rd_lt_of_dateLt _ _ e.property s.property h
      omega
    have hy : s.val.year ≤ e.val.year := by
      rcases hse with hlt | heq
      · rcases hlt with h | ⟨h, _⟩ <;> omega
      · rw [heq]
    have hfuel : monthIndex e.val + 1 ≤
        monthIndex s.val + 12 * (e.val.year + 1 - s.val.year) := by
      obtain ⟨_, hm1, _, _, _⟩ := s.property
      obtain ⟨_, _, hm2e, _, _⟩ := e.property
      simp only [monthIndex]
      omega
    have hcov := splitAux_covers e (12 * (e.val.year + 1 - s.val.year)) s hrd hfuel
    refine ⟨splitAux e (12 * (e.val.year + 1 - s.val.year)) s, ?_, hcov, ?_⟩
    · simp [split_by_month, hnlt]
    · exact covers_mem_iff _ _ _ hcov
  · rfl

/-- Witness for C2 at the concrete range 2025-11-01 .. 2025-12-01. -/
theorem split_by_month_covers_range_witness :
    ∃ ws, split_by_month d20251101 d20251201 = .ok ws ∧
      covers (rd d20251101.val) ws (rd d20251201.val) ∧
      ∀ n, (rd d20251101.val ≤ n ∧ n ≤ rd d20251201.val) ↔
        ∃ w ∈ ws, rd w.1.val ≤ n ∧ n ≤ rd w.2.val :=
  split_by_month_covers_range.1 d20251101 d20251201 (by decide)

/-- C7: for every pair of valid dates with end < start, `split_by_month`
raises the invalid-range `ValueError` and produces no windows. -/
theorem inverted_range_rejected (s e : VDate) (h : dateLt e.val s.val) :
    split_by_month s e = .error ("종료일이 시작일보다 빠릅니다.") := by
  simp [split_by_month, h]

/-- Witness for C7 with start 2025-12-01 and end 2025-11-01. -/
theorem inverted_range_rejected_witness :
    split_by_month d20251201 d20251101 = .error ("종료일이 시작일보다 빠릅니다.") :=
  inverted_range_rejected d20251201 d20251101 (by decide)

/-- With every transport status successful, the fetch loop completes and its
event trace is exactly the per-window outcomes separated by the fixed
5-second suspension. -/
theorem runLoop_ok_trace (runs : List (Window × FetchResponse)) :
    ∀ idx total, idx + runs.length = total + 1 →
      (∀ p ∈ runs, p.2.primeStatus < 400 ∧ p.2.status < 400) →
      runLoop total idx runs =
        .ok (List.intersperse (RunEvent.sleep 5)
          (runs.map (fun p => RunEvent.window (processResponse p.1 p.2)))) := by
  induction runs with
  | nil => intro idx total hinv h; rfl
  | cons p rest ih =>
    intro idx total hinv h
    obtain ⟨w, r⟩ := p
    have hp := h (w, r) (List.mem_cons_self _ _)
    dsimp only at hp
    have hg1 : ¬ 400 ≤ r.primeStatus := by omega
    have hg2 : ¬ 400 ≤ r.status := by omega
    have hrest : ∀ q ∈ rest, q.2.primeStatus < 400 ∧ q.2.status < 400 :=
      fun q hq => h q (List.mem_cons_of_mem _ hq)
    have hinv' : idx + 1 + rest.length = total + 1 := by
      simp only [List.length_cons] at hinv
      omega
    simp only [runLoop]
    rw [if_neg hg1, if_neg hg2, ih (idx + 1) total hinv' hrest]
    cases rest with
    | nil =>
      have hlast : ¬ idx < total := by
        simp only [List.length_cons, List.length_nil] at hinv
        omega
      simp [hlast, List.intersperse_singleton]
    | cons q rest' =>
      have hmore : idx < total := by
        simp only [List.length_cons] at hinv
        omega
      simp [hmore, List.intersperse_cons_cons]

/-- `download_all_by_months` with no transport failure: the whole trace. -/
theorem download_all_trace (runs : List (Window × FetchResponse))
    (h : ∀ p ∈ runs, p.2.primeStatus < 400 ∧ p.2.status < 400) :
    download_all_by_months runs =
      .ok (List.intersperse (RunEvent.sleep 5)
        (runs.map (fun p => RunEvent.window (processResponse p.1 p.2)))) :=
  runLoop_ok_trace runs 1 runs.length (by omega) h

/-- Even positions of an interspersed list are the original elements. -/
theorem intersperse_get_even {α : Type} (sep : α) :
    ∀ (l : List α) (k : Nat), (List.intersperse sep l).get? (2 * k) = l.get? k := by
  intro l
  induction l with
  | nil => intro k; rfl
  | cons a t ih =>
    intro k
    cases t with
    | nil =>
      cases k with
      | zero => rfl
      | succ k' =>
        simp [List.intersperse_singleton, show 2 * (k' + 1) = 2 * k' + 2 from by omega,
          List.get?]
    | cons b t' =>
      cases k with
      | zero => rfl
      | succ k' =>
        rw [List.intersperse_cons_cons]
        have e1 : 2 * (k' + 1) = (2 * k') + 1 + 1 := by omega
        rw [e1]
        simp only [List.get?]
        exact ih k'

/-- Odd positions of an interspersed list are the separator, and exist
exactly between consecutive elements. -/
theorem intersperse_get_odd {α : Type} (sep : α) :
    ∀ (l : List α) (k : Nat), (List.intersperse sep l).get? (2 * k + 1) =
      if k + 1 < l.length then some sep else none := by
  intro l
  induction l with
  | nil => intro k; simp [List.get?]
  | cons a t ih =>
    intro k
    cases t with
    | nil =>
      simp [List.intersperse_singleton, List.get?]
    | cons b t' =>
      cases k with
      | zero =>
        rw [List.intersperse_cons_cons]
        simp [List.get?, List.length_cons]
      | succ k' =>
        rw [List.intersperse_cons_cons]
        have e1 : 2 * (k' + 1) + 1 = (2 * k' + 1) + 1 + 1 := by omega
        rw [e1]
        simp only [List.get?]
        rw [ih k']
        simp only [List.length_cons]
        by_cases hk : k' + 1 < t'.length + 1
        · rw [if_pos hk, if_pos (by omega)]
        · rw [if_neg hk, if_neg (by omega)]

/-- An interspersed list of n elements has 2n - 1 entries. -/
theorem intersperse_length {α : Type} (sep : α) :
    ∀ (l : List α), (List.intersperse sep l).length = 2 * l.length - 1 := by
  intro l
  induction l with
  | nil => rfl
  | cons a t ih =>
    cases t with
    | nil => rfl
    | cons b t' =>
      rw [List.intersperse_cons_cons]
      simp only [List.length_cons] at ih ⊢
      omega

/-- C5: in a run whose responses all have successful transport status, every
window whose data response declares a content type in which "csv" does not
occur (case-insensitively) is classified as rejected: the run does not
raise, the trace records for that window a rejection diagnostic carrying
the window bounds, the declared (lower-cased) content type and the first
300 body bytes — not a saved file — and the trace still contains all
2n - 1 events, so the run continued through every window. -/
theorem content_type_rejection_nonfatal (runs : List (Window × FetchResponse))
    (h : ∀ p ∈ runs, p.2.primeStatus < 400 ∧ p.2.status < 400)
    (i : Nat) (w : Window) (r : FetchResponse)
    (hi : runs.get? i = some (w, r))
    (hct : containsSub csvChars (lowerStr r.contentType) = false) :
    ∃ evs, download_all_by_months runs = .ok evs ∧
      evs.get? (2 * i) = some (RunEvent.window (WindowOutcome.rejected
        { ds := w.ds, de := w.de, contentType := lowerStr r.contentType,
          preview := r.body.take 300 })) ∧
      evs.length = 2 * runs.length - 1 := by
  refine ⟨_, download_all_trace runs h, ?_, ?_⟩
  · rw [intersperse_get_even, List.get?_map, hi]
    simp [processResponse, hct]
  · rw [intersperse_length, List.length_map]

/-- Witness for C5: a two-window run whose first response declares
TEXT/HTML. -/
theorem content_type_rejection_nonfatal_witness :
    ∃ evs, download_all_by_months
        [(sampleWindow1, htmlResponse), (sampleWindow2, csvResponse)] = .ok evs ∧
      evs.get? (2 * 0) = some (RunEvent.window (WindowOutcome.rejected
        { ds := sampleWindow1.ds, de := sampleWindow1.de,
          contentType := lowerStr htmlResponse.contentType,
          preview := htmlResponse.body.take 300 })) ∧
      evs.length = 2 * ([(sampleWindow1, htmlResponse),
        (sampleWindow2, csvResponse)] : List (Window × FetchResponse)).length - 1 :=
  content_type_rejection_nonfatal
    [(sampleWindow1, htmlResponse), (sampleWindow2, csvResponse)]
    (by decide) 0 sampleWindow1 htmlResponse (by decide) (by decide)

/-- C6: in a run whose responses all have successful transport status over
n windows, the trace is exactly the window outcomes interleaved with the
fixed 5-second suspension: a `sleep 5` event follows window i exactly when
i < n (none after the last window), and the delay is the constant 5 —
no jitter, no growth. -/
theorem fixed_pacing_between_windows (runs : List (Window × FetchResponse))
    (h : ∀ p ∈ runs, p.2.primeStatus < 400 ∧ p.2.status < 400) :
    ∃ evs, download_all_by_months runs = .ok evs ∧
      evs = List.intersperse (RunEvent.sleep 5)
        (runs.map (fun p => RunEvent.window (processResponse p.1 p.2))) ∧
      ∀ k, evs.get? (2 * k + 1) =
        if k + 1 < runs.length then some (RunEvent.sleep 5) else none := by
  refine ⟨_, download_all_trace runs h, rfl, ?_⟩
  intro k
  rw [intersperse_get_odd, List.length_map]

/-- Witness for C6: a two-window run with CSV responses. -/
theorem fixed_pacing_between_windows_witness :
    ∃ evs, download_all_by_months
        [(sampleWindow1, csvResponse), (sampleWindow2, csvResponse)] = .ok evs ∧
      evs = List.intersperse (RunEvent.sleep 5)
        (([(sampleWindow1, csvResponse), (sampleWindow2, csvResponse)]
          : List (Window × FetchResponse)).map
            (fun p => RunEvent.window (processResponse p.1 p.2))) ∧
      ∀ k, evs.get? (2 * k + 1) =
        if k + 1 < ([(sampleWindow1, csvResponse), (sampleWindow2, csvResponse)]
          : List (Window × FetchResponse)).length then some (RunEvent.sleep 5) else none :=
  fixed_pacing_between_windows
    [(sampleWindow1, csvResponse), (sampleWindow2, csvResponse)] (by decide)

/-- A row that has one cell per column yields a value for every column. -/
theorem getVal_isSome_of_mem : ∀ (cols : List String) (row : List Val) (t : String),
    row.length = cols.length → t ∈ cols → ∃ v, getVal cols row t = some v := by
  intro cols
  induction cols with
  | nil => intro row t _ hc; cases hc
  | cons c0 cs ih =>
    intro row t hlen hc
    cases row with
    | nil => simp at hlen
    | cons v0 vs =>
      by_cases h0 : c0 = t
      · exact ⟨v0, by simp [getVal, h0]⟩
      · have hc' : t ∈ cs := by
          rcases List.mem_cons.mp hc with h | h
          · exact absurd h.symm h0
          · exact h
        have hlen' : vs.length = cs.length := by
          simp only [List.length_cons] at hlen
          omega
        obtain ⟨v, hv⟩ := ih vs t hlen' hc'
        exact ⟨v, by simp [getVal, h0, hv]⟩

/-- Looking a column up in a re-laid-out row gives the original value
(NaN-defaulted) when the column is present, `none` otherwise. -/
theorem getVal_reindex : ∀ (newCols oldCols : List String) (row : List Val) (t : String),
    getVal newCols (reindex oldCols row newCols) t =
      if t ∈ newCols then some ((getVal oldCols row t).getD Val.nan) else none := by
  intro newCols
  induction newCols with
  | nil => intro oldCols row t; simp [reindex, getVal]
  | cons n ns ih =>
    intro oldCols row t
    simp only [reindex, List.map_cons]
    by_cases hn : n = t
    · subst hn
      simp [getVal]
    · have hne : ¬ t = n := fun h => hn h.symm
      simp only [getVal, if_neg hn]
      rw [show (ns.map (fun c => (getVal oldCols row c).getD Val.nan))
            = reindex oldCols row ns from rfl]
      rw [ih oldCols row t]
      simp [List.mem_cons, hne]

/-- Re-laying out a well-formed row preserves its identity key as long as
the key columns exist on both sides. -/
theorem rowKey_reindex (oldCols newCols subset : List String) (row : List Val)
    (hrow : row.length = oldCols.length)
    (hold : ∀ c ∈ subset, c ∈ oldCols) (hnew : ∀ c ∈ subset, c ∈ newCols) :
    rowKey newCols subset (reindex oldCols row newCols) = rowKey oldCols subset row := by
  unfold rowKey
  apply List.map_congr_left
  intro c hc
  rw [getVal_reindex, if_pos (hnew c hc)]
  obtain ⟨v, hv⟩ := getVal_isSome_of_mem oldCols row c hrow (hold c hc)
  rw [hv]
  rfl

/-- Concatenation keeps every column of the left frame. -/
theorem concat_cols_left (a b : DF) (c : String) (hc : c ∈ a.cols) :
    c ∈ (DF.concat a b).cols := by
  simp only [DF.concat, List.mem_append]
  exact Or.inl hc

/-- Every left-frame row appears (re-laid-out) in the concatenation. -/
theorem concat_rows_left (a b : DF) (r : List Val) (hr : r ∈ a.rows) :
    reindex a.cols r (DF.concat a b).cols ∈ (DF.concat a b).rows := by
  simp only [DF.concat, List.mem_append, List.mem_map]
  exact Or.inl ⟨r, hr, rfl⟩

/-- Every right-frame row appears (re-laid-out) in the concatenation. -/
theorem concat_rows_right (a b : DF) (r : List Val) (hr : r ∈ b.rows) :
    reindex b.cols r (DF.concat a b).cols ∈ (DF.concat a b).rows := by
  simp only [DF.concat, List.mem_append, List.mem_map]
  exact Or.inr ⟨r, hr, rfl⟩

/-- Membership in the master's key set is existence of a master row with
that key. -/
theorem mem_masterKeys (subset : List String) (df : DF) (k : List (Option Val)) :
    k ∈ masterKeys subset df ↔ ∃ mrow ∈ df.rows, rowKey df.cols subset mrow = k := by
  simp [masterKeys, List.mem_dedup, List.mem_map]

/-- When every incoming row's key already occurs in the master, the dedup
path keeps the master unchanged and reports added = 0, skipped = all. -/
theorem dedupBy_added_zero (subset : List String) (dfN dfM : DF)
    (hsub : (subset.all (fun c => decide (c ∈ dfM.cols))) = true)
    (hall : ∀ row ∈ dfN.rows, ∃ mrow ∈ dfM.rows,
      rowKey dfM.cols subset mrow = rowKey dfN.cols subset row) :
    dedupBy subset dfN dfM =
      .ok { table := dfM, added := 0, skipped := dfN.rows.length,
            usedKey := some subset, warned := false } := by
  have hnil : newUnique subset dfN dfM = [] := by
    rw [newUnique, List.filter_eq_nil_iff]
    intro row hrow
    simp only [decide_eq_true_eq, not_not]
    exact (mem_masterKeys subset dfM _).mpr (hall row hrow)
  unfold dedupBy
  rw [if_pos hsub, hnil]
  simp

/-- The merge branch taken when the new batch has all three identity
columns (merge_to_all.py line 62). -/
theorem merge_branch_K3 (B X : DF) (hh : ("hour") ∈ B.cols) (hd : ("date") ∈ B.cols)
    (hs : ("station_name") ∈ B.cols) :
    merge_to_all_csv B (some X) = dedupBy [("date"), ("station_name"), ("hour")] B X := by
  simp [merge_to_all_csv, hh, hd, hs]

/-- The merge branch taken when the new batch has date and station_name but
no hour column (merge_to_all.py line 79). -/
theorem merge_branch_K2 (B X : DF) (hh : ("hour") ∉ B.cols) (hd : ("date") ∈ B.cols)
    (hs : ("station_name") ∈ B.cols) :
    merge_to_all_csv B (some X) = dedupBy [("date"), ("station_name")] B X := by
  simp [merge_to_all_csv, hh, hd, hs]

/-- Re-merging the same batch into the table produced by a first dedup
merge skips every row: key preservation through `pd.concat`'s column
alignment. -/
theorem merge_idem_core (subset : List String) (B m T : DF)
    (hB : B.WF) (hm : m.WF)
    (hsubB : ∀ c ∈ subset, c ∈ B.cols)
    (hsub : (subset.all (fun c => decide (c ∈ m.cols))) = true)
    (hT : T = if 0 < (newUnique subset B m).length
              then DF.concat m { cols := B.cols, rows := newUnique subset B m }
              else m) :
    dedupBy subset B T =
      .ok { table := T, added := 0, skipped := B.rows.length,
            usedKey := some subset, warned := false } := by
  have hsubM : ∀ c ∈ subset, c ∈ m.cols := by
    intro c hc
    have h := List.all_eq_true.mp hsub c hc
    simp only [decide_eq_true_eq] at h
    exact h
  apply dedupBy_added_zero
  · apply List.all_eq_true.mpr
    intro c hc
    simp only [decide_eq_true_eq]
    rcases Nat.eq_zero_or_pos (newUnique subset B m).length with h0 | h0
    · rw [hT, if_neg (by omega)]
      exact hsubM c hc
    · rw [hT, if_pos h0]
      exact concat_cols_left m _ c (hsubM c hc)
  · intro row hrow
    by_cases hkey : rowKey B.cols subset row ∈ masterKeys subset m
    · obtain ⟨mrow, hmrow, hk⟩ := (mem_masterKeys subset m _).mp hkey
      rcases Nat.eq_zero_or_pos (newUnique subset B m).length with h0 | h0
      · rw [hT, if_neg (by omega)]
        exact ⟨mrow, hmrow, hk⟩
      · rw [hT, if_pos h0]
        refine ⟨reindex m.cols mrow
          (DF.concat m { cols := B.cols, rows := newUnique subset B m }).cols,
          concat_rows_left _ _ _ hmrow, ?_⟩
        rw [rowKey_reindex m.cols _ subset mrow (hm mrow hmrow) hsubM
          (fun c hc => concat_cols_left _ _ c (hsubM c hc))]
        exact hk
    · have hmem : row ∈ newUnique subset B m := by
        rw [newUnique, List.mem_filter]
        exact ⟨hrow, by simpa using hkey⟩
      have h0 : 0 < (newUnique subset B m).length :=
        List.length_pos.mpr (List.ne_nil_of_mem hmem)
      rw [hT, if_pos h0]
      refine ⟨reindex B.cols row
        (DF.concat m { cols := B.cols, rows := newUnique subset B m }).cols, ?_, ?_⟩
      · exact concat_rows_right m { cols := B.cols, rows := newUnique subset B m } row hmem
      · rw [rowKey_reindex B.cols _ subset row (hB row hrow) hsubB
          (fun c hc => concat_cols_left _ _ c (hsubM c hc))]

/-- C8: for every new batch, when no master table exists the merge persists
exactly the new batch as-is: added = batch size, skipped = 0, and the
persisted table (created at the target path) is the batch, with total row
count equal to the batch size. -/
theorem merge_creates_master_from_batch (B : DF) :
    ∃ r, merge_to_all_csv B none = .ok r ∧ r.table = B ∧
      r.added = B.rows.length ∧ r.skipped = 0 ∧
      r.table.rows.length = B.rows.length :=
  ⟨_, rfl, rfl, rfl, rfl, rfl⟩

/-- C1: evaluation of the merge at a batch older than the master (master
holds date 5, batch holds date 3): the code appends the new row after the
master rows and performs no sort before persisting, so the persisted date
column is [5, 3], which is not non-decreasing — contradicting the claimed
re-sort invariant (and the code's own "날짜 순 정렬" comment, which is
followed by no sort call). -/
theorem merge_append_without_sort_eval :
    ∃ r, merge_to_all_csv dfBatchEarly (some dfMasterLate) = Except.ok r ∧
      numsOf (dateColumn r.table) = [5, 3] ∧ ¬ dateSortedAsc r.table := by
  refine ⟨_, rfl, rfl, ?_⟩
  intro h
  have h2 : List.Chain' (fun a b => a ≤ b) ([5, 3] : List Int) := h
  simp only [List.chain'_cons, List.chain'_singleton, and_true] at h2
  omega

/-- C3 counterexample: the new batch has date, station_name and hour but
the master lacks hour.  The claim says the merge falls back to the
{date, station_name} key and never raises; the code resolves the key from
the batch's columns alone, picks the three-column key, and raises KeyError
when projecting the master. -/
theorem merge_key_probe_raises_on_master_missing_hour :
    merge_to_all_csv dfBatchHour (some dfMasterLate) = Except.error ("KeyError") := rfl

/-- C3 (amended): when a master table exists, the identity-key columns are
resolved once per call from the NEW BATCH's columns alone:
{date, station_name, hour} if all three are in the batch — raising KeyError
when the master lacks any of them; otherwise {date, station_name} if both
are in the batch — raising KeyError when the master lacks either; otherwise
every incoming row is treated as unique (added = batch size, skipped = 0)
and the dedup-bypass warning is emitted without raising. -/
theorem merge_key_fallback_on_new_batch_columns (B M : DF) :
    ((("hour") ∈ B.cols ∧ ("date") ∈ B.cols ∧ ("station_name") ∈ B.cols) →
      (((("date") ∈ M.cols ∧ ("station_name") ∈ M.cols ∧ ("hour") ∈ M.cols) →
        ∃ r, merge_to_all_csv B (some M) = .ok r ∧
          r.usedKey = some [("date"), ("station_name"), ("hour")] ∧ r.warned = false) ∧
      (¬ (("date") ∈ M.cols ∧ ("station_name") ∈ M.cols ∧ ("hour") ∈ M.cols) →
        merge_to_all_csv B (some M) = .error ("KeyError")))) ∧
    (("hour") ∉ B.cols → ("date") ∈ B.cols → ("station_name") ∈ B.cols →
      (((("date") ∈ M.cols ∧ ("station_name") ∈ M.cols) →
        ∃ r, merge_to_all_csv B (some M) = .ok r ∧
          r.usedKey = some [("date"), ("station_name")] ∧ r.warned = false) ∧
      (¬ (("date") ∈ M.cols ∧ ("station_name") ∈ M.cols) →
        merge_to_all_csv B (some M) = .error ("KeyError")))) ∧
    (¬ (("date") ∈ B.cols ∧ ("station_name") ∈ B.cols) →
      ∃ r, merge_to_all_csv B (some M) = .ok r ∧ r.usedKey = none ∧
        r.warned = true ∧ r.added = B.rows.length ∧ r.skipped = 0) := by
  refine ⟨?_, ?_, ?_⟩
  · rintro ⟨hh, hd, hs⟩
    constructor
    · rintro ⟨hmd, hms, hmh⟩
      have hall : ([("date"), ("station_name"), ("hour")].all
          (fun c => decide (c ∈ M.cols))) = true := by
        simp [hmd, hms, hmh]
      rw [merge_branch_K3 B M hh hd hs]
      unfold dedupBy
      rw [if_pos hall]
      exact ⟨_, rfl, rfl, rfl⟩
    · intro hnm
      have hall : ¬ (([("date"), ("station_name"), ("hour")].all
          (fun c => decide (c ∈ M.cols))) = true) := by
        intro hc
        apply hnm
        simp only [List.all_cons, List.all_nil, Bool.and_eq_true,
          decide_eq_true_eq, Bool.and_true] at hc
        tauto
      rw [merge_branch_K3 B M hh hd hs]
      unfold dedupBy
      rw [if_neg hall]
  · intro hh hd hs
    constructor
    · rintro ⟨hmd, hms⟩
      have hall : (([("date"), ("station_name")]).all
          (fun c => decide (c ∈ M.cols))) = true := by
        simp [hmd, hms]
      rw [merge_branch_K2 B M hh hd hs]
      unfold dedupBy
      rw [if_pos hall]
      exact ⟨_, rfl, rfl, rfl⟩
    · intro hnm
      have hall : ¬ ((([("date"), ("station_name")]).all
          (fun c => decide (c ∈ M.cols))) = true) := by
        intro hc
        apply hnm
        simp only [List.all_cons, List.all_nil, Bool.and_eq_true,
          decide_eq_true_eq, Bool.and_true] at hc
        tauto
      rw [merge_branch_K2 B M hh hd hs]
      unfold dedupBy
      rw [if_neg hall]
  · intro hnb
    have hc1 : ¬ (("hour") ∈ B.cols ∧ ("date") ∈ B.cols ∧ ("station_name") ∈ B.cols) := by
      rintro ⟨_, hd, hs⟩
      exact hnb ⟨hd, hs⟩
    simp only [merge_to_all_csv, if_neg hc1, if_neg hnb]
    exact ⟨_, rfl, rfl, rfl, rfl, rfl⟩

/-- Witness for C3 (amended), third branch: a batch without identity
columns merged into an existing master is appended whole with a warning. -/
theorem merge_key_fallback_on_new_batch_columns_witness :
    ∃ r, merge_to_all_csv dfNoKey (some dfMasterLate) = .ok r ∧ r.usedKey = none ∧
      r.warned = true ∧ r.added = dfNoKey.rows.length ∧ r.skipped = 0 :=
  (merge_key_fallback_on_new_batch_columns dfNoKey dfMasterLate).2.2 (by decide)

/-- C4 counterexample: a one-row batch without identity columns, merged
into an absent master and then re-merged into the result, is appended
again: the second merge reports added = 1, not 0. -/
theorem merge_not_idempotent_without_key_columns :
    ∃ r1 r2, merge_to_all_csv dfNoKey none = Except.ok r1 ∧
      merge_to_all_csv dfNoKey (some r1.table) = Except.ok r2 ∧
      r2.added = 1 ∧ r2.added ≠ 0 := by
  refine ⟨_, _, rfl, rfl, rfl, by decide⟩

/-- C4 (amended): the merge is idempotent whenever the batch carries the
identity columns (date and station_name, with or without hour): for every
well-formed batch B and master state M (absent or a well-formed table), if
merging B into M succeeds with result r, then merging B into r's table
succeeds with added = 0 — every row of B is classified as skipped. -/
theorem merge_idempotent_with_key_columns (B : DF) (M : Option DF)
    (hB : B.WF) (hM : ∀ m, M = some m → m.WF)
    (hd : ("date") ∈ B.cols) (hs : ("station_name") ∈ B.cols)
    (r : MergeResult) (h1 : merge_to_all_csv B M = .ok r) :
    ∃ r2, merge_to_all_csv B (some r.table) = .ok r2 ∧ r2.added = 0 ∧
      r2.skipped = B.rows.length := by
  cases M with
  | none =>
    have hr : ({ table := B, added := B.rows.length, skipped := 0,
                 usedKey := none, warned := false } : MergeResult) = r := by
      simp only [merge_to_all_csv, Except.ok.injEq] at h1
      exact h1
    subst hr
    by_cases hh : ("hour") ∈ B.cols
    · rw [show ({ table := B, added := B.rows.length, skipped := 0,
                  usedKey := none, warned := false } : MergeResult).table = B from rfl]
      rw [merge_branch_K3 B B hh hd hs]
      rw [dedupBy_added_zero [("date"), ("station_name"), ("hour")] B B
        (by simp [hh, hd, hs]) (fun row hrow => ⟨row, hrow, rfl⟩)]
      exact ⟨_, rfl, rfl, rfl⟩
    · rw [show ({ table := B, added := B.rows.length, skipped := 0,
                  usedKey := none, warned := false } : MergeResult).table = B from rfl]
      rw [merge_branch_K2 B B hh hd hs]
      rw [dedupBy_added_zero [("date"), ("station_name")] B B
        (by simp [hd, hs]) (fun row hrow => ⟨row, hrow, rfl⟩)]
      exact ⟨_, rfl, rfl, rfl⟩
  | some m =>
    have hm := hM m rfl
    by_cases hh : ("hour") ∈ B.cols
    · rw [merge_branch_K3 B m hh hd hs] at h1
      by_cases hsub : ([("date"), ("station_name"), ("hour")].all
          (fun c => decide (c ∈ m.cols))) = true
      · unfold dedupBy at h1
        rw [if_pos hsub, Except.ok.injEq] at h1
        subst h1
        rw [merge_branch_K3 B _ hh hd hs]
        rw [merge_idem_core [("date"), ("station_name"), ("hour")] B m _ hB hm
          (by
            intro c hc
            simp only [List.mem_cons, List.not_mem_nil, or_false] at hc
            rcases hc with rfl | rfl | rfl
            · exact hd
            · exact hs
            · exact hh)
          hsub rfl]
        exact ⟨_, rfl, rfl, rfl⟩
      · unfold dedupBy at h1
        rw [if_neg hsub] at h1
        simp at h1
    · rw [merge_branch_K2 B m hh hd hs] at h1
      by_cases hsub : ([("date"), ("station_name")].all
          (fun c => decide (c ∈ m.cols))) = true
      · unfold dedupBy at h1
        rw [if_pos hsub, Except.ok.injEq] at h1
        subst h1
        rw [merge_branch_K2 B _ hh hd hs]
        rw [merge_idem_core [("date"), ("station_name")] B m _ hB hm
          (by
            intro c hc
            simp only [List.mem_cons, List.not_mem_nil, or_false] at hc
            rcases hc with rfl | rfl
            · exact hd
            · exact hs)
          hsub rfl]
        exact ⟨_, rfl, rfl, rfl⟩
      · unfold dedupBy at h1
        rw [if_neg hsub] at h1
        simp at h1

/-- Witness for C4 (amended): the keyed one-row batch merged into an absent
master and re-merged into the result is fully skipped. -/
theorem merge_idempotent_with_key_columns_witness :
    ∃ r2, merge_to_all_csv dfKeyed (some dfKeyed) = .ok r2 ∧ r2.added = 0 ∧
      r2.skipped = dfKeyed.rows.length :=
  merge_idempotent_with_key_columns dfKeyed none (by decide) (fun m h => by cases h)
    (by decide) (by decide) _ rfl

/-- `normalize_date_format` is the guarded separator-stripping. -/
theorem normalize_eq_strip (s : List Char) :
    normalize_date_format s =
      if (stripSeps s).length = 8 ∧ (stripSeps s).all Char.isDigit
      then .ok (stripSeps s) else .error ("날짜 형식이 올바르지 않습니다") := rfl

/-- Filtering out a non-digit character leaves an all-digit list intact. -/
theorem filter_digits_self (l : List Char) (hl : l.all Char.isDigit = true)
    (c : Char) (hc : c.isDigit = false) :
    l.filter (fun x => x != c) = l := by
  apply List.filter_eq_self.mpr
  intro a ha
  have hd := List.all_eq_true.mp hl a ha
  simp only [bne_iff_ne, ne_eq]
  intro he
  rw [he, hc] at hd
  exact Bool.false_ne_true hd

/-- Separator stripping is the identity on all-digit strings. -/
theorem stripSeps_digits (l : List Char) (hl : l.all Char.isDigit = true) :
    stripSeps l = l := by
  unfold stripSeps
  rw [filter_digits_self l hl '-' (by decide), filter_digits_self l hl '/' (by decide)]

/-- Stripping the hyphen form of a date leaves the digit form. -/
theorem stripSeps_dashes (Y M D : List Char)
    (hdig : (Y ++ M ++ D).all Char.isDigit = true) :
    stripSeps (Y ++ [ '-' ] ++ M ++ [ '-' ] ++ D) = Y ++ M ++ D := by
  simp only [List.all_append, Bool.and_eq_true] at hdig
  obtain ⟨⟨hY, hM⟩, hD⟩ := hdig
  unfold stripSeps
  simp only [List.filter_append]
  rw [filter_digits_self Y hY '-' (by decide), filter_digits_self M hM '-' (by decide),
    filter_digits_self D hD '-' (by decide),
    show (([ '-' ] : List Char).filter (fun x => x != '-')) = [] from rfl]
  simp only [List.filter_nil, List.append_nil, List.nil_append]
  rw [filter_digits_self Y hY '/' (by decide), filter_digits_self M hM '/' (by decide),
    filter_digits_self D hD '/' (by decide)]

/-- Stripping the slash form of a date leaves the digit form. -/
theorem stripSeps_slashes (Y M D : List Char)
    (hdig : (Y ++ M ++ D).all Char.isDigit = true) :
    stripSeps (Y ++ [ '/' ] ++ M ++ [ '/' ] ++ D) = Y ++ M ++ D := by
  simp only [List.all_append, Bool.and_eq_true] at hdig
  obtain ⟨⟨hY, hM⟩, hD⟩ := hdig
  unfold stripSeps
  simp only [List.filter_append]
  rw [filter_digits_self Y hY '-' (by decide), filter_digits_self M hM '-' (by decide),
    filter_digits_self D hD '-' (by decide),
    show (([ '/' ] : List Char).filter (fun x => x != '-')) = [ '/' ] from rfl]
  rw [filter_digits_self Y hY '/' (by decide), filter_digits_self M hM '/' (by decide),
    filter_digits_self D hD '/' (by decide),
    show (([ '/' ] : List Char).filter (fun x => x != '/')) = [] from rfl]
  simp only [List.append_nil, List.nil_append]

/-- C9: any calendar date given as four year digits, two month digits and
two day digits normalises to the same canonical 8-digit form whether
written as YYYYMMDD, YYYY-MM-DD or YYYY/MM/DD; and any input whose
stripped form is not exactly 8 digits raises the descriptive ValueError
(so collection is never reached for it). -/
theorem normalize_date_three_forms_agree (Y M D : List Char)
    (hY : Y.length = 4) (hM : M.length = 2) (hD : D.length = 2)
    (hdig : (Y ++ M ++ D).all Char.isDigit = true) :
    normalize_date_format (Y ++ M ++ D) = .ok (Y ++ M ++ D) ∧
    normalize_date_format (Y ++ [ '-' ] ++ M ++ [ '-' ] ++ D) = .ok (Y ++ M ++ D) ∧
    normalize_date_format (Y ++ [ '/' ] ++ M ++ [ '/' ] ++ D) = .ok (Y ++ M ++ D) ∧
    (∀ s : List Char,
      ¬ ((stripSeps s).length = 8 ∧ (stripSeps s).all Char.isDigit) →
      normalize_date_format s = .error ("날짜 형식이 올바르지 않습니다")) := by
  have hlen : (Y ++ M ++ D).length = 8 := by
    simp only [List.length_append]
    omega
  refine ⟨?_, ?_, ?_, ?_⟩
  · rw [normalize_eq_strip, stripSeps_digits _ hdig, if_pos ⟨hlen, hdig⟩]
  · rw [normalize_eq_strip, stripSeps_dashes Y M D hdig, if_pos ⟨hlen, hdig⟩]
  · rw [normalize_eq_strip, stripSeps_slashes Y M D hdig, if_pos ⟨hlen, hdig⟩]
  · intro s hns
    rw [normalize_eq_strip, if_neg hns]

/-- Witness for C9 at the date 2025-11-01 in all three forms. -/
theorem normalize_date_three_forms_agree_witness :
    normalize_date_format ([ '2', '0', '2', '5' ] ++ [ '1', '1' ] ++ [ '0', '1' ]) =
      .ok ([ '2', '0', '2', '5' ] ++ [ '1', '1' ] ++ [ '0', '1' ]) ∧
    normalize_date_format ([ '2', '0', '2', '5' ] ++ [ '-' ] ++ [ '1', '1' ] ++ [ '-' ] ++ [ '0', '1' ]) =
      .ok ([ '2', '0', '2', '5' ] ++ [ '1', '1' ] ++ [ '0', '1' ]) ∧
    normalize_date_format ([ '2', '0', '2', '5' ] ++ [ '/' ] ++ [ '1', '1' ] ++ [ '/' ] ++ [ '0', '1' ]) =
      .ok ([ '2', '0', '2', '5' ] ++ [ '1', '1' ] ++ [ '0', '1' ]) ∧
    (∀ s : List Char,
      ¬ ((stripSeps s).length = 8 ∧ (stripSeps s).all Char.isDigit) →
      normalize_date_format s = .error ("날짜 형식이 올바르지 않습니다")) :=
  normalize_date_three_forms_agree [ '2', '0', '2', '5' ] [ '1', '1' ] [ '0', '1' ]
    (by decide) (by decide) (by decide) (by decide)

/-- C10: `normalize_date_format` performs no calendar validation: an input
is accepted exactly when deleting every '-' and '/' (in any positions and
mixture) leaves exactly 8 decimal digits, which are returned as-is; every
other input is rejected with the ValueError.  In particular "99999999" (not
a real date) and the arbitrarily mixed "-99/99-9999/" are both accepted. -/
theorem normalize_date_no_calendar_validation :
    (∀ s : List Char, normalize_date_format s = .ok (stripSeps s) ↔
      ((stripSeps s).length = 8 ∧ (stripSeps s).all Char.isDigit)) ∧
    (∀ s : List Char, normalize_date_format s = .ok (stripSeps s) ∨
      normalize_date_format s = .error ("날짜 형식이 올바르지 않습니다")) ∧
    normalize_date_format [ '9', '9', '9', '9', '9', '9', '9', '9' ] =
      .ok [ '9', '9', '9', '9', '9', '9', '9', '9' ] ∧
    normalize_date_format [ '-', '9', '9', '/', '9', '9', '-', '9', '9', '9', '9', '/' ] =
      .ok [ '9', '9', '9', '9', '9', '9', '9', '9' ] := by
  refine ⟨?_, ?_, ?_, ?_⟩
  · intro s
    rw [normalize_eq_strip]
    constructor
    · intro h
      by_cases hc : (stripSeps s).length = 8 ∧ (stripSeps s).all Char.isDigit
      · exact hc
      · rw [if_neg hc] at h
        exact absurd h (by simp)
    · intro hc
      rw [if_pos hc]
  · intro s
    rw [normalize_eq_strip]
    by_cases hc : (stripSeps s).length = 8 ∧ (stripSeps s).all Char.isDigit
    · rw [if_pos hc]
      exact Or.inl rfl
    · rw [if_neg hc]
      exact Or.inr rfl
  · rfl
  · rfl
